import Mathlib

/-!
# Verification of the fractal-hash-traversal chain generator

Shallow embedding of `src/lib.rs`. The digest capability (`H : Digest +
FixedOutputReset` in the source) is modelled as an arbitrary function
`hash : List Nat → List Nat` from byte strings to byte strings: the source
only ever (a) initialises the hasher with the little-endian bytes of the
seed and finalises-and-resets it, producing `hash (leBytes8 seed)`, and
(b) feeds the previous output back in and finalises-and-resets, producing
`hash previousOutput`.  u64 arithmetic that can overflow is modelled with
an explicit `% 2 ^ 64` (release-mode wrapping semantics).  The `assert!`
inside `log_2` and the `.unwrap()` on the power-table lookup are modelled
by an `Option` result of the chain loop: `none` means a panic.
-/

namespace HashTraversal

/-- The little-endian byte encoding of a `u64` seed (`seed.to_le_bytes()`). -/
def leBytes8 (seed : Nat) : List Nat :=
  (List.range 8).map (fun k => seed / 2 ^ (8 * k) % 256)

/-- `Pebble` from the source.  All integer fields are u64; `value` is the
digest output (a byte string). -/
structure Pebble where
  start_incr : Nat
  dest_incr : Nat
  position : Nat
  destination : Nat
  value : List Nat
  deriving DecidableEq, Repr

/-- `leading_zeros` of a `u64` value: 64 minus the bit length. -/
def u64_leading_zeros (x : Nat) : Nat :=
  if x = 0 then 64 else 64 - (Nat.log2 x + 1)

/-- `log_2` from the source: `num_bits::<u64>() as u32 - x.leading_zeros() - 1`.
The source `assert!(x > 0)` is modelled at the call site (see `chainLoop`). -/
def log_2 (x : Nat) : Nat :=
  64 - u64_leading_zeros x - 1

/-- `create_powers` from the source: pushes `2u64.pow(p + 1)` for
`p in 0..how_many`.  The u64 exponentiation wraps modulo `2 ^ 64`. -/
def create_powers (how_many : Nat) : List Nat :=
  (List.range how_many).map (fun p => 2 ^ (p + 1) % 2 ^ 64)

/-- The pebble literal pushed by the loop body of `create_hash_chain`:
`Pebble { start_incr: 3*i, dest_incr: 2u64*i, position: i, destination: i,
value: output.clone() }`, with u64 products wrapping modulo `2 ^ 64`. -/
def mkPebble (i : Nat) (out : List Nat) : Pebble :=
  ⟨3 * i % 2 ^ 64, 2 * i % 2 ^ 64, i, i, out⟩

/-- The loop `for i in 2u64..=length` of `create_hash_chain`, with `fuel`
remaining iterations and `i` the current loop index.  A `none` result models
a panic: either the `assert!(x > 0)` in `log_2` (when `i = 0`) or the
`.unwrap()` on `powers.get(log_2(i) as usize - 1)` (out-of-bounds lookup). -/
def chainLoop (hash : List Nat → List Nat) (powers : List Nat)
    (out : List Nat) (pebbles : List Pebble) (i : Nat) :
    Nat → Option (List Nat × List Pebble)
  | 0 => some (out, pebbles)
  | fuel + 1 =>
    let out2 := hash out
    if i = 0 then none
    else
      match powers.get? (log_2 i - 1) with
      | none => none
      | some v =>
        chainLoop hash powers out2
          (if i = v then pebbles ++ [mkPebble i out2] else pebbles) (i + 1) fuel

/-- `create_hash_chain` from the source.  `length` is the `usize` argument,
`seed` the `u64` seed.  The outer `Except` is the source's
`Result<_, ChainInitError>` (the error carries the message string); the inner
`Option` is `none` exactly when some assertion or unwrap inside the loop
would panic. -/
def create_hash_chain (hash : List Nat → List Nat) (length seed : Nat) :
    Except String (Option (List Pebble)) :=
  if length == 0 || (length &&& (length - 1)) != 0 then
    .error "length not a power of two"
  else
    let num_pebbles := log_2 length
    let powers := create_powers num_pebbles
    let output := hash (leBytes8 seed)
    .ok ((chainLoop hash powers output [] 2 (length - 1)).map (fun r => r.2))

/-- The loop `for _ in 2u64..=length` of `create_hash_chain_nopebble`, with
`fuel` remaining iterations: each iteration hashes the previous output and
pushes the result. -/
def nopebbleLoop (hash : List Nat → List Nat) (out : List Nat) :
    Nat → List (List Nat)
  | 0 => []
  | fuel + 1 =>
    let out2 := hash out
    out2 :: nopebbleLoop hash out2 fuel

/-- `create_hash_chain_nopebble` from the source: pushes H₁ unconditionally,
then iterates `length - 1` more times. -/
def create_hash_chain_nopebble (hash : List Nat → List Nat)
    (length seed : Nat) : List (List Nat) :=
  let output := hash (leBytes8 seed)
  output :: nopebbleLoop hash output (length - 1)

/-- The conceptual chain of the spec: `chainH hash seed i` is Hᵢ, where
H₁ = Hash(le_bytes(seed)) and Hᵢ = Hash(Hᵢ₋₁). -/
def chainH (hash : List Nat → List Nat) (seed i : Nat) : List Nat :=
  hash^[i - 1] (hash (leBytes8 seed))

/-! ## Basic facts about `log_2` and `create_powers` -/

theorem log_2_eq_log2 {x : Nat} (hx : x ≠ 0) (hx64 : x < 2 ^ 64) :
    log_2 x = Nat.log2 x := by
  have hlog : Nat.log2 x < 64 := (Nat.log2_lt hx).mpr hx64
  simp only [log_2, u64_leading_zeros, hx, if_false]
  omega

theorem create_powers_length (how_many : Nat) :
    (create_powers how_many).length = how_many := by
  simp [create_powers]

theorem create_powers_get? {k p : Nat} (hp : p < k) (hk : k ≤ 63) :
    (create_powers k).get? p = some (2 ^ (p + 1)) := by
  have h2 : 2 ^ (p + 1) < 2 ^ 64 :=
    Nat.pow_lt_pow_right (by norm_num) (by omega)
  simp [create_powers, List.get?_eq_getElem?, hp, Nat.mod_eq_of_lt h2]
  exact lt_of_lt_of_le h2 (by norm_num)

/-- The table lookup performed by the loop body: for `2 ≤ m ≤ 2 ^ k`
the entry at index `log_2 m - 1` exists and equals `2 ^ log_2 m`. -/
theorem create_powers_lookup {k m : Nat} (h2 : 2 ≤ m) (hm : m ≤ 2 ^ k)
    (hk : k ≤ 63) :
    (create_powers k).get? (log_2 m - 1) = some (2 ^ log_2 m) := by
  have hm0 : m ≠ 0 := by omega
  have hm64 : m < 2 ^ 64 :=
    lt_of_le_of_lt hm (Nat.pow_lt_pow_right (by norm_num) (by omega))
  have hlog : log_2 m = Nat.log2 m := log_2_eq_log2 hm0 hm64
  have h1le : 1 ≤ Nat.log2 m := (Nat.le_log2 hm0).mpr (by simpa using h2)
  have hlek : Nat.log2 m ≤ k := by
    have := (Nat.log2_lt hm0).mpr
      (lt_of_le_of_lt hm (Nat.pow_lt_pow_right (by norm_num) (Nat.lt_succ_self k)))
    omega
  rw [hlog]
  have : Nat.log2 m - 1 + 1 = Nat.log2 m := by omega
  rw [create_powers_get? (by omega) hk, this]

/-! ## Characterisation of the chain loop -/

/-- The loop of `create_hash_chain` never panics and produces, from loop
index `i` with `fuel` iterations left, the pebbles at exactly the indices
`m` of its range that satisfy the table test `m = 2 ^ log_2 m`, each
carrying the `(m + 1 - i)`-fold hash of the incoming rolling value. -/
theorem chainLoop_eq (hash : List Nat → List Nat) (powers : List Nat) :
    ∀ (fuel i : Nat) (out : List Nat) (pebbles : List Pebble),
      2 ≤ i →
      (∀ m, i ≤ m → m < i + fuel →
        powers.get? (log_2 m - 1) = some (2 ^ log_2 m)) →
      chainLoop hash powers out pebbles i fuel =
        some (hash^[fuel] out,
          pebbles ++
            ((List.range' i fuel).filter
              (fun m => decide (m = 2 ^ log_2 m))).map
              (fun m => mkPebble m (hash^[m + 1 - i] out))) := by
  intro fuel
  induction fuel with
  | zero =>
    intro i out pebbles _ _
    simp [chainLoop]
  | succ f ih =>
    intro i out pebbles h2 hpow
    have hi0 : ¬ i = 0 := by omega
    have hget := hpow i (le_refl i) (by omega)
    have hrec := ih (i + 1) (hash out)
      (if i = 2 ^ log_2 i then pebbles ++ [mkPebble i (hash out)] else pebbles)
      (by omega) (fun m hm1 hm2 => hpow m (by omega) (by omega))
    have hmap :
        ((List.range' (i + 1) f).filter (fun m => decide (m = 2 ^ log_2 m))).map
          (fun m => mkPebble m (hash^[m + 1 - (i + 1)] (hash out))) =
        ((List.range' (i + 1) f).filter (fun m => decide (m = 2 ^ log_2 m))).map
          (fun m => mkPebble m (hash^[m + 1 - i] out)) := by
      apply List.map_congr_left
      intro m hm
      have hm1 : i + 1 ≤ m := (List.mem_range'_1.mp (List.mem_of_mem_filter hm)).1
      have e1 : m + 1 - (i + 1) = m - i := by omega
      have e2 : m + 1 - i = (m - i) + 1 := by omega
      rw [e1, e2, Function.iterate_succ_apply]
    simp only [chainLoop, if_neg hi0, hget]
    rw [hrec, hmap]
    rw [List.range'_succ, List.filter_cons]
    by_cases hi : i = 2 ^ log_2 i
    · have e3 : i + 1 - i = 1 := by omega
      rw [if_pos hi, if_pos (decide_eq_true hi), ← List.append_cons]
      simp only [List.map_cons, e3, Function.iterate_one,
        Function.iterate_succ_apply, Function.iterate_zero_apply]
    · rw [if_neg hi, if_neg (by simpa using hi)]
      simp only [Function.iterate_succ_apply]

theorem log2_two_pow (n : Nat) : Nat.log2 (2 ^ n) = n := by
  have h0 : (2 : Nat) ^ n ≠ 0 := (Nat.pow_pos (by norm_num)).ne'
  have h1 : n ≤ Nat.log2 (2 ^ n) := (Nat.le_log2 h0).mpr (le_refl _)
  have h2 : Nat.log2 (2 ^ n) < n + 1 :=
    (Nat.log2_lt h0).mpr (Nat.pow_lt_pow_right (by norm_num) (Nat.lt_succ_self n))
  omega

theorem log_2_two_pow {n : Nat} (hn : n ≤ 63) : log_2 (2 ^ n) = n := by
  rw [log_2_eq_log2 (Nat.pow_pos (by norm_num)).ne'
    (Nat.pow_lt_pow_right (by norm_num) (by omega)), log2_two_pow]

theorem log2_eq_of_between {k m : Nat} (h1 : 2 ^ k ≤ m) (h2 : m < 2 ^ (k + 1)) :
    Nat.log2 m = k := by
  have hm0 : m ≠ 0 := by
    have := Nat.pow_pos (a := 2) (n := k) (by norm_num)
    omega
  have ha := (Nat.le_log2 hm0).mpr h1
  have hb := (Nat.log2_lt hm0).mpr h2
  omega

/-- In the open band between `2 ^ k` and `2 ^ (k + 1)` no index passes the
power-table test of the loop body. -/
theorem filter_band_nil {k : Nat} (hk : k ≤ 63) :
    (List.range' (2 ^ k + 1) (2 ^ k - 1)).filter
      (fun m => decide (m = 2 ^ log_2 m)) = [] := by
  apply List.filter_eq_nil_iff.mpr
  intro m hm
  have hmem := List.mem_range'_1.mp hm
  have hp : 0 < (2 : Nat) ^ k := Nat.pow_pos (by norm_num)
  have hlo : 2 ^ k ≤ m := by omega
  have hhi : m < 2 ^ (k + 1) := by
    have : (2 : Nat) ^ (k + 1) = 2 ^ k + 2 ^ k := by ring
    omega
  have hm64 : m < 2 ^ 64 := by
    have : (2 : Nat) ^ (k + 1) ≤ 2 ^ 64 := Nat.pow_le_pow_right (by norm_num) (by omega)
    omega
  have hlog : log_2 m = k := by
    rw [log_2_eq_log2 (by omega) hm64, log2_eq_of_between hlo hhi]
  simp only [hlog, decide_eq_true_eq]
  omega

/-- The indices in `[2, 2 ^ k]` passing the power-table test are exactly
`2 ^ 1, 2 ^ 2, …, 2 ^ k`, in order. -/
theorem filter_pow_range :
    ∀ k : Nat, k ≤ 63 →
      (List.range' 2 (2 ^ k - 1)).filter (fun m => decide (m = 2 ^ log_2 m)) =
        (List.range k).map (fun j => 2 ^ (j + 1)) := by
  intro k
  induction k with
  | zero => intro _; simp
  | succ k ih =>
    intro hk
    have hp : 0 < (2 : Nat) ^ k := Nat.pow_pos (by norm_num)
    have e1 : 2 ^ (k + 1) - 1 = 2 ^ k + (2 ^ k - 1) := by
      have : (2 : Nat) ^ (k + 1) = 2 ^ k + 2 ^ k := by ring
      omega
    have e2 : 2 + (2 ^ k - 1) = 2 ^ k + 1 := by omega
    have e3 : (2 : Nat) ^ k = (2 ^ k - 1) + 1 := by omega
    have e4 : 2 ^ k + 1 + (2 ^ k - 1) = 2 ^ (k + 1) := by
      have : (2 : Nat) ^ (k + 1) = 2 ^ k + 2 ^ k := by ring
      omega
    rw [e1, ← List.range'_append_1, e2, List.filter_append, ih (by omega)]
    rw [e3, List.range'_1_concat, ← e3, List.filter_append, filter_band_nil (by omega)]
    rw [e4, List.range_succ, List.map_append]
    have hpow : ((2 : Nat) ^ (k + 1) = 2 ^ log_2 (2 ^ (k + 1))) := by
      rw [log_2_two_pow (by omega)]
    rw [List.nil_append, List.filter_cons, if_pos (decide_eq_true hpow)]
    simp

/-- `create_hash_chain` on a valid length `2 ^ k` (any power of two a 64-bit
`usize` can hold): no panic, and the pebble list is exactly one pebble per
power of two `2 ^ 1, …, 2 ^ k`, carrying the chain value at its position. -/
theorem create_hash_chain_eq (hash : List Nat → List Nat) (seed k : Nat)
    (hk : k ≤ 63) :
    create_hash_chain hash (2 ^ k) seed =
      .ok (some ((List.range k).map
        (fun j => mkPebble (2 ^ (j + 1)) (chainH hash seed (2 ^ (j + 1)))))) := by
  have hp : 0 < (2 : Nat) ^ k := Nat.pow_pos (by norm_num)
  have hand : (2 ^ k &&& (2 ^ k - 1)) = 0 := by
    rw [Nat.and_pow_two_sub_one_eq_mod]
    exact Nat.mod_self _
  have hcond : ((2 ^ k == 0) || ((2 ^ k &&& (2 ^ k - 1)) != 0)) = false := by
    simp [hand]
  rw [create_hash_chain]
  simp only [hcond, Bool.false_eq_true, if_false, log_2_two_pow hk]
  rw [chainLoop_eq hash (create_powers k) (2 ^ k - 1) 2 (hash (leBytes8 seed)) []
    (by omega) (fun m hm1 hm2 => create_powers_lookup hm1 (by omega) hk)]
  rw [Option.map_some', List.nil_append, filter_pow_range k hk, List.map_map]
  congr 2

theorem nopebbleLoop_eq (hash : List Nat → List Nat) :
    ∀ (fuel : Nat) (out : List Nat),
      nopebbleLoop hash out fuel =
        (List.range fuel).map (fun j => hash^[j + 1] out) := by
  intro fuel
  induction fuel with
  | zero => intro out; simp [nopebbleLoop]
  | succ f ih =>
    intro out
    rw [nopebbleLoop, ih (hash out), List.range_succ_eq_map]
    simp only [List.map_cons, List.map_map, Function.iterate_one]
    congr 1

/-- `create_hash_chain_nopebble` materialises `max 1 length` chain elements:
H₁ unconditionally, then H₂ … H_length. -/
theorem create_hash_chain_nopebble_eq (hash : List Nat → List Nat)
    (length seed : Nat) :
    create_hash_chain_nopebble hash length seed =
      (List.range (max 1 length)).map (fun j => chainH hash seed (j + 1)) := by
  have e : max 1 length = (length - 1) + 1 := by omega
  rw [create_hash_chain_nopebble, nopebbleLoop_eq, e, List.range_succ_eq_map]
  simp only [List.map_cons, List.map_map]
  congr 1

/-- Element `i` (1-based) of the full chain built by the reference builder. -/
theorem nopebble_get? (hash : List Nat → List Nat) (seed length i : Nat)
    (h1 : 1 ≤ i) (h2 : i ≤ length) :
    (create_hash_chain_nopebble hash length seed).get? (i - 1) =
      some (chainH hash seed i) := by
  rw [create_hash_chain_nopebble_eq]
  have hm : max 1 length = length := by omega
  have hi : i - 1 < length := by omega
  rw [hm]
  simp only [List.get?_eq_getElem?, List.getElem?_map, List.getElem?_range, hi,
    if_pos, Option.map_some']
  have e : i - 1 + 1 = i := by omega
  rw [e]

/-! ## Claims -/

/-- C1: for every power-of-two length `2 ^ k` (representable in a 64-bit
`usize`, so `k ≤ 63`) and every seed and digest, each pebble returned by
`create_hash_chain` at position `p` has as its `value` the element at
1-based position `p` of the sequence returned by
`create_hash_chain_nopebble` for the same length, seed and digest. -/
theorem claim_C1_pebble_value_matches_full_chain
    (hash : List Nat → List Nat) (seed k : Nat) (hk : k ≤ 63)
    (ps : List Pebble)
    (hps : create_hash_chain hash (2 ^ k) seed = .ok (some ps)) :
    ∀ pb ∈ ps,
      (create_hash_chain_nopebble hash (2 ^ k) seed).get? (pb.position - 1) =
        some pb.value := by
  rw [create_hash_chain_eq hash seed k hk] at hps
  have hps' : (List.range k).map
      (fun j => mkPebble (2 ^ (j + 1)) (chainH hash seed (2 ^ (j + 1)))) = ps := by
    simpa using hps
  subst hps'
  intro pb hpb
  obtain ⟨j, hj, rfl⟩ := List.mem_map.mp hpb
  have hjk : j < k := List.mem_range.mp hj
  have h1 : 1 ≤ 2 ^ (j + 1) := Nat.pow_pos (by norm_num)
  have h2 : 2 ^ (j + 1) ≤ 2 ^ k := Nat.pow_le_pow_right (by norm_num) (by omega)
  exact nopebble_get? hash seed (2 ^ k) (2 ^ (j + 1)) h1 h2

/-- C1 witness: instance at `k = 1`, seed `0`, the constant-`[]` digest. -/
theorem claim_C1_witness :
    (1 : Nat) ≤ 63 ∧
    create_hash_chain (fun _ => []) (2 ^ 1) 0 = .ok (some [mkPebble 2 []]) ∧
    ∀ pb ∈ [mkPebble 2 []],
      (create_hash_chain_nopebble (fun _ => []) (2 ^ 1) 0).get? (pb.position - 1) =
        some pb.value :=
  ⟨by omega,
    by rw [create_hash_chain_eq (fun _ => []) 0 1 (by omega)]
       simp [chainH, List.range_succ],
    claim_C1_pebble_value_matches_full_chain (fun _ => []) 0 1 (by omega)
      [mkPebble 2 []]
      (by rw [create_hash_chain_eq (fun _ => []) 0 1 (by omega)]
          simp [chainH, List.range_succ])⟩

/-- C2: for every `L = 2 ^ k` with `0 ≤ k ≤ 63` and every seed and digest,
`create_hash_chain` succeeds (no error, no panic) with exactly `k = log2 L`
pebbles, whose positions are exactly `2, 4, …, 2 ^ k` in strictly increasing
order; for `L = 1` (`k = 0`) it returns zero pebbles. -/
theorem claim_C2_pebble_positions
    (hash : List Nat → List Nat) (seed k : Nat) (hk : k ≤ 63) :
    ∃ ps : List Pebble,
      create_hash_chain hash (2 ^ k) seed = .ok (some ps) ∧
      ps.length = k ∧
      ps.map (fun pb => pb.position) = (List.range k).map (fun j => 2 ^ (j + 1)) ∧
      List.Pairwise (fun a b => a < b) (ps.map (fun pb => pb.position)) := by
  refine ⟨_, create_hash_chain_eq hash seed k hk, by simp, ?_, ?_⟩
  · rw [List.map_map]
    rfl
  · rw [List.map_map]
    exact List.Pairwise.map _
      (fun a b h => Nat.pow_lt_pow_right (by norm_num) (by omega))
      (List.pairwise_lt_range k)

/-- C2 witness: instance at `k = 0` (`L = 1`): zero pebbles. -/
theorem claim_C2_witness :
    (0 : Nat) ≤ 63 ∧
    ∃ ps : List Pebble,
      create_hash_chain (fun _ => []) (2 ^ 0) 0 = .ok (some ps) ∧
      ps.length = 0 ∧
      ps.map (fun pb => pb.position) =
        (List.range 0).map (fun j => 2 ^ (j + 1)) ∧
      List.Pairwise (fun a b => a < b) (ps.map (fun pb => pb.position)) :=
  ⟨by omega, claim_C2_pebble_positions (fun _ => []) 0 0 (by omega)⟩

/-- A number in `[2 ^ t, 2 ^ (t + 1))` has bit `t` set. -/
theorem testBit_of_between {t m : Nat} (h1 : 2 ^ t ≤ m) (h2 : m < 2 ^ (t + 1)) :
    m.testBit t = true := by
  rw [Nat.testBit_to_div_mod]
  have e2 : (1 + 1) * 2 ^ t = 2 ^ (t + 1) := by ring
  have hdiv : m / 2 ^ t = 1 :=
    Nat.div_eq_of_lt_le (by simpa using h1) (by omega)
  rw [hdiv]
  decide

/-- The source's validation test `length == 0 || (length & (length - 1)) != 0`
holds exactly for lengths that are zero or not a power of two. -/
theorem valid_cond_iff (length : Nat) :
    ((length == 0) || ((length &&& (length - 1)) != 0)) = true ↔
      (length = 0 ∨ ¬ ∃ j, length = 2 ^ j) := by
  rw [Bool.or_eq_true, beq_iff_eq, bne_iff_ne]
  by_cases h0 : length = 0
  · simp [h0]
  · simp only [h0, false_or]
    constructor
    · rintro hne ⟨j, rfl⟩
      rw [Nat.and_pow_two_sub_one_eq_mod, Nat.mod_self] at hne
      exact hne rfl
    · intro hnex
      have hle : 2 ^ Nat.log2 length ≤ length := (Nat.le_log2 h0).mp (le_refl _)
      have hlt : length < 2 ^ (Nat.log2 length + 1) :=
        (Nat.log2_lt h0).mp (Nat.lt_succ_self _)
      have hne' : length ≠ 2 ^ Nat.log2 length := fun h => hnex ⟨_, h⟩
      have hp : 0 < (2 : Nat) ^ Nat.log2 length := Nat.pow_pos (by norm_num)
      have hb1 : length.testBit (Nat.log2 length) = true :=
        testBit_of_between hle hlt
      have hb2 : (length - 1).testBit (Nat.log2 length) = true :=
        testBit_of_between (by omega) (by omega)
      intro hand0
      have hland := Nat.testBit_land length (length - 1) (Nat.log2 length)
      rw [hand0, Nat.zero_testBit, hb1, hb2] at hland
      simp at hland

/-- C3: `create_hash_chain` returns an error exactly when the length is zero
or not a power of two; the only error value carries the message
"length not a power of two"; and in the failure case the digest is never
invoked — visibly, the result does not depend on the digest function. -/
theorem claim_C3_error_iff (hash : List Nat → List Nat) (length seed : Nat) :
    ((∃ e, create_hash_chain hash length seed = Except.error e) ↔
      (length = 0 ∨ ¬ ∃ j, length = 2 ^ j)) ∧
    (∀ e, create_hash_chain hash length seed = Except.error e →
      e = "length not a power of two") ∧
    ((length = 0 ∨ ¬ ∃ j, length = 2 ^ j) →
      ∀ hash2 : List Nat → List Nat,
        create_hash_chain hash2 length seed =
          create_hash_chain hash length seed) := by
  by_cases hc : ((length == 0) || ((length &&& (length - 1)) != 0)) = true
  · have herr : ∀ h : List Nat → List Nat,
        create_hash_chain h length seed = .error "length not a power of two" := by
      intro h
      rw [create_hash_chain, if_pos hc]
    refine ⟨⟨fun _ => (valid_cond_iff length).mp hc, fun _ => ⟨_, herr hash⟩⟩,
      ?_, ?_⟩
    · intro e he
      rw [herr hash] at he
      injection he with h
      exact h.symm
    · intro _ hash2
      rw [herr hash2, herr hash]
  · have hok : create_hash_chain hash length seed =
        .ok ((chainLoop hash (create_powers (log_2 length))
          (hash (leBytes8 seed)) [] 2 (length - 1)).map (fun r => r.2)) := by
      rw [create_hash_chain, if_neg hc]
    refine ⟨⟨?_, ?_⟩, ?_, ?_⟩
    · rintro ⟨e, he⟩
      rw [hok] at he
      exact absurd he (by simp)
    · intro hinv
      exact absurd ((valid_cond_iff length).mpr hinv) hc
    · intro e he
      rw [hok] at he
      exact absurd he (by simp)
    · intro hinv
      exact absurd ((valid_cond_iff length).mpr hinv) hc

/-- C4: with a validated length `2 ^ k` no internal panic can fire: the loop
result is `some` (never the `none` that models the `assert!`/`unwrap()`
panics), every loop index is positive, and every power-table lookup index
`log_2 i - 1` is within the table's bounds. -/
theorem claim_C4_no_panic (hash : List Nat → List Nat) (seed k : Nat)
    (hk : k ≤ 63) :
    (∃ ps : List Pebble, create_hash_chain hash (2 ^ k) seed = .ok (some ps)) ∧
    (∀ i, 2 ≤ i → i ≤ 2 ^ k →
      0 < i ∧ log_2 i - 1 < (create_powers (log_2 (2 ^ k))).length) := by
  refine ⟨⟨_, create_hash_chain_eq hash seed k hk⟩, ?_⟩
  intro i h2 hik
  refine ⟨by omega, ?_⟩
  have hi64 : i < 2 ^ 64 :=
    lt_of_le_of_lt hik (Nat.pow_lt_pow_right (by norm_num) (by omega))
  have hlog : log_2 i = Nat.log2 i := log_2_eq_log2 (by omega) hi64
  have h1le : 1 ≤ Nat.log2 i :=
    (Nat.le_log2 (by omega)).mpr (by simpa using h2)
  have hlek : Nat.log2 i ≤ k := by
    have := (Nat.log2_lt (show i ≠ 0 by omega)).mpr
      (lt_of_le_of_lt hik (Nat.pow_lt_pow_right (by norm_num) (Nat.lt_succ_self k)))
    omega
  rw [create_powers_length, log_2_two_pow hk, hlog]
  omega

/-- C4 witness: instance at `k = 2`. -/
theorem claim_C4_witness :
    (2 : Nat) ≤ 63 ∧
    ((∃ ps : List Pebble,
        create_hash_chain (fun _ => []) (2 ^ 2) 0 = .ok (some ps)) ∧
      (∀ i, 2 ≤ i → i ≤ 2 ^ 2 →
        0 < i ∧ log_2 i - 1 < (create_powers (log_2 (2 ^ 2))).length)) :=
  ⟨by omega, claim_C4_no_panic (fun _ => []) 0 2 (by omega)⟩

/-- C5 (amended): for every valid power-of-two length `2 ^ k` (`k ≤ 63`),
every pebble satisfies `destination = position`; and for lengths up to
`2 ^ 62` also `start_incr = 3 × position` and `dest_incr = 2 × position` as
exact (non-wrapping) integer arithmetic.  (At the valid length `2 ^ 63` the
u64 products wrap: see the counterexample.) -/
theorem claim_C5_pebble_fields (hash : List Nat → List Nat) (seed k : Nat)
    (hk : k ≤ 63) (ps : List Pebble)
    (hps : create_hash_chain hash (2 ^ k) seed = .ok (some ps)) :
    (∀ pb ∈ ps, pb.destination = pb.position) ∧
    (k ≤ 62 → ∀ pb ∈ ps,
      pb.start_incr = 3 * pb.position ∧
      pb.dest_incr = 2 * pb.position) := by
  rw [create_hash_chain_eq hash seed k hk] at hps
  have hps' : (List.range k).map
      (fun j => mkPebble (2 ^ (j + 1)) (chainH hash seed (2 ^ (j + 1)))) = ps := by
    simpa using hps
  subst hps'
  constructor
  · intro pb hpb
    obtain ⟨j, hj, rfl⟩ := List.mem_map.mp hpb
    rfl
  · intro hk62 pb hpb
    obtain ⟨j, hj, rfl⟩ := List.mem_map.mp hpb
    have hjk : j < k := List.mem_range.mp hj
    have hle : 2 ^ (j + 1) ≤ 2 ^ 62 :=
      Nat.pow_le_pow_right (by norm_num) (by omega)
    have he : (2 : Nat) ^ 64 = 4 * 2 ^ 62 := by norm_num
    have h3 : 3 * 2 ^ (j + 1) < 2 ^ 64 := by omega
    have h2 : 2 * 2 ^ (j + 1) < 2 ^ 64 := by omega
    constructor
    · simp [mkPebble, Nat.mod_eq_of_lt h3]
      exact lt_of_lt_of_le h3 (by norm_num)
    · simp [mkPebble, Nat.mod_eq_of_lt h2]
      exact lt_of_lt_of_le h2 (by norm_num)

/-- C5 witness: instance at `k = 1`. -/
theorem claim_C5_witness :
    (1 : Nat) ≤ 63 ∧
    create_hash_chain (fun _ => []) (2 ^ 1) 0 = .ok (some [mkPebble 2 []]) ∧
    ((∀ pb ∈ [mkPebble 2 []], pb.destination = pb.position) ∧
      ((1 : Nat) ≤ 62 → ∀ pb ∈ [mkPebble 2 []],
        pb.start_incr = 3 * pb.position ∧
        pb.dest_incr = 2 * pb.position)) :=
  ⟨by omega,
    by rw [create_hash_chain_eq (fun _ => []) 0 1 (by omega)]
       simp [chainH, List.range_succ],
    claim_C5_pebble_fields (fun _ => []) 0 1 (by omega) [mkPebble 2 []]
      (by rw [create_hash_chain_eq (fun _ => []) 0 1 (by omega)]
          simp [chainH, List.range_succ])⟩

/-- C5 counterexample: at the valid power-of-two length `2 ^ 63` (the largest
power of two a 64-bit `usize` holds) the pebble emitted at position `2 ^ 63`
has `start_incr = 3 * 2 ^ 63 % 2 ^ 64 = 2 ^ 63 ≠ 3 * 2 ^ 63`: the u64
multiplication `3 * i` wraps, so the fields are not exact products there. -/
theorem claim_C5_counterexample :
    ∃ ps : List Pebble,
      create_hash_chain (fun _ => []) (2 ^ 63) 0 = .ok (some ps) ∧
      ∃ pb ∈ ps, pb.start_incr ≠ 3 * pb.position := by
  refine ⟨_, create_hash_chain_eq (fun _ => []) 0 63 (by omega), ?_⟩
  refine ⟨mkPebble (2 ^ 63) (chainH (fun _ => []) 0 (2 ^ 63)), ?_, ?_⟩
  · exact List.mem_map.mpr ⟨62, List.mem_range.mpr (by omega), by norm_num⟩
  · simp only [mkPebble]
    decide

/-- C6 (amended): for counts `n ≤ 63`, `create_powers n` is exactly
`[2, 4, …, 2 ^ n]`, and `create_powers 3 = [2, 4, 8]`.  (At `n = 64` the u64
power `2 ^ 64` wraps to 0: see the counterexample.) -/
theorem claim_C6_create_powers (n : Nat) (hn : n ≤ 63) :
    create_powers n = (List.range n).map (fun p => 2 ^ (p + 1)) ∧
    create_powers 3 = [2, 4, 8] := by
  constructor
  · rw [create_powers]
    apply List.map_congr_left
    intro p hp
    have hpn : p < n := List.mem_range.mp hp
    exact Nat.mod_eq_of_lt (Nat.pow_lt_pow_right (by norm_num) (by omega))
  · decide

/-- C6 witness: instance at `n = 3`. -/
theorem claim_C6_witness :
    (3 : Nat) ≤ 63 ∧
    (create_powers 3 = (List.range 3).map (fun p => 2 ^ (p + 1)) ∧
      create_powers 3 = [2, 4, 8]) :=
  ⟨by omega, claim_C6_create_powers 3 (by omega)⟩

/-- C6 counterexample: `create_powers 64` is not the sequence of the first 64
powers of two: its 64th entry is `2 ^ 64 % 2 ^ 64 = 0` (u64 overflow of
`2u64.pow(64)`), not `2 ^ 64`. -/
theorem claim_C6_counterexample :
    create_powers 64 ≠ (List.range 64).map (fun p => 2 ^ (p + 1)) := by
  decide

/-- C7: for every positive length — power of two or not — the reference
builder performs no validation and never fails: it returns exactly `length`
digest outputs, the `i`-th (1-based) being Hᵢ of the chain
H₁ = Hash(le_bytes(seed)), Hᵢ = Hash(Hᵢ₋₁). -/
theorem claim_C7_nopebble (hash : List Nat → List Nat) (length seed : Nat)
    (hpos : 0 < length) :
    (create_hash_chain_nopebble hash length seed).length = length ∧
    ∀ i, 1 ≤ i → i ≤ length →
      (create_hash_chain_nopebble hash length seed).get? (i - 1) =
        some (chainH hash seed i) := by
  constructor
  · rw [create_hash_chain_nopebble_eq]
    simp
    omega
  · intro i h1 h2
    exact nopebble_get? hash seed length i h1 h2

/-- C7 witness: instance at the non-power-of-two length 3. -/
theorem claim_C7_witness :
    (0 : Nat) < 3 ∧
    ((create_hash_chain_nopebble (fun _ => []) 3 0).length = 3 ∧
      ∀ i, 1 ≤ i → i ≤ 3 →
        (create_hash_chain_nopebble (fun _ => []) 3 0).get? (i - 1) =
          some (chainH (fun _ => []) 0 i)) :=
  ⟨by omega, claim_C7_nopebble (fun _ => []) 3 0 (by omega)⟩

/-- C8: for length 128 and seed 0 (any digest), `create_hash_chain` returns
exactly 7 pebbles at positions 2, 4, 8, 16, 32, 64, 128, and
`create_hash_chain_nopebble 128 0` has 128 elements whose 128th element
equals the 7th pebble's value. -/
theorem claim_C8_length_128 (hash : List Nat → List Nat) :
    ∃ ps : List Pebble,
      create_hash_chain hash 128 0 = .ok (some ps) ∧
      ps.length = 7 ∧
      ps.map (fun pb => pb.position) = [2, 4, 8, 16, 32, 64, 128] ∧
      (create_hash_chain_nopebble hash 128 0).length = 128 ∧
      ∃ pb : Pebble, ps.get? 6 = some pb ∧
        (create_hash_chain_nopebble hash 128 0).get? 127 = some pb.value := by
  have hchain : create_hash_chain hash 128 0 =
      .ok (some ((List.range 7).map
        (fun j => mkPebble (2 ^ (j + 1)) (chainH hash 0 (2 ^ (j + 1)))))) := by
    have h128 : (128 : Nat) = 2 ^ 7 := by norm_num
    rw [h128]
    exact create_hash_chain_eq hash 0 7 (by omega)
  refine ⟨_, hchain, by simp, ?_, ?_, ?_⟩
  · simp [List.range_succ, mkPebble]
  · rw [create_hash_chain_nopebble_eq]
    simp
  · refine ⟨mkPebble 128 (chainH hash 0 128), ?_, ?_⟩
    · simp [List.get?_eq_getElem?]
    · have h := nopebble_get? hash 0 128 128 (by omega) (le_refl _)
      norm_num at h
      simpa [mkPebble] using h

/-- C9: determinism — two calls of `create_hash_chain` with identical length,
seed and digest return identical results; the embedding is a pure function of
exactly these three inputs (the source touches no other state). -/
theorem claim_C9_deterministic (hash1 hash2 : List Nat → List Nat)
    (len1 len2 seed1 seed2 : Nat)
    (hh : hash1 = hash2) (hl : len1 = len2) (hs : seed1 = seed2) :
    create_hash_chain hash1 len1 seed1 = create_hash_chain hash2 len2 seed2 := by
  rw [hh, hl, hs]

/-- C9 witness: instance at length 8, seed 0, the constant-`[]` digest. -/
theorem claim_C9_witness :
    (fun _ : List Nat => ([] : List Nat)) = (fun _ => []) ∧
    (8 : Nat) = 8 ∧ (0 : Nat) = 0 ∧
    create_hash_chain (fun _ => []) 8 0 = create_hash_chain (fun _ => []) 8 0 :=
  ⟨rfl, rfl, rfl,
    claim_C9_deterministic (fun _ => []) (fun _ => []) 8 8 0 0 rfl rfl rfl⟩

/-- C10: for length 0 the reference builder still returns one element — H₁,
the hash of the seed bytes — because H₁ is pushed unconditionally before the
loop; in general the output length is `max 1 length`. -/
theorem claim_C10_zero_length (hash : List Nat → List Nat) (seed : Nat) :
    create_hash_chain_nopebble hash 0 seed = [hash (leBytes8 seed)] ∧
    ∀ length : Nat,
      (create_hash_chain_nopebble hash length seed).length = max 1 length := by
  constructor
  · rfl
  · intro length
    rw [create_hash_chain_nopebble_eq]
    simp

end HashTraversal
